import Mathlib

/-!
Verification development for the pipeline orchestration core of the
kasparro-agentic repository.  Each Python component relevant to the checked
properties is shallowly embedded as executable Lean definitions:

* `src/core/errors.py`   — `retry_with_backoff`, `CircuitBreaker`
* `src/core/state.py`    — `PipelineState`, `StateManager.checkpoint`,
  `StateManager.load_checkpoint`, `StateManager.can_resume_from`
* `src/core/job_manager.py` — `JobManager.create_job` / `update_job` / `get_job`
* `src/agents/orchestrator.py` — `Orchestrator.run` / `_execute_step`
* `src/agents/nodes.py` + `src/core/validator.py` — validation-gated
  generator nodes
* `src/core/dag.py`      — `DAGValidator.validate`, `_has_cycle`,
  `get_execution_order`

Machine dictionaries are embedded as insertion-ordered association lists,
wall-clock instants as integers, exceptions as `Except`/`Option` results.
-/

namespace PipelineCore

/-! ## Circuit breaker (src/core/errors.py, class CircuitBreaker) -/

/-- The three breaker states of `CircuitBreaker.State`. -/
inductive CBState where
  | closed
  | opened
  | halfOpen
deriving DecidableEq, Repr

/-- Mutable attributes of a `CircuitBreaker` instance.  `time.time()` values
are embedded as integers; `_last_failure_time` starts out as `None`. -/
structure CircuitBreaker where
  failure_threshold : Nat
  recovery_timeout : Int
  cstate : CBState
  failure_count : Nat
  last_failure_time : Option Int
deriving DecidableEq, Repr

/-- `CircuitBreaker.__init__`: fresh breaker in CLOSED with zero failures. -/
def CircuitBreaker.init (failure_threshold : Nat) (recovery_timeout : Int) :
    CircuitBreaker :=
  { failure_threshold := failure_threshold
    recovery_timeout := recovery_timeout
    cstate := CBState.closed
    failure_count := 0
    last_failure_time := none }

/-- The `state` property: when OPEN and the recovery timeout has elapsed since
the last failure, the breaker mutates itself to HALF_OPEN; the (possibly
updated) state is returned together with the updated breaker. -/
def CircuitBreaker.stateProp (cb : CircuitBreaker) (now : Int) :
    CBState × CircuitBreaker :=
  if cb.cstate = CBState.opened then
    if now - cb.last_failure_time.getD 0 ≥ cb.recovery_timeout then
      (CBState.halfOpen, { cb with cstate := CBState.halfOpen })
    else (cb.cstate, cb)
  else (cb.cstate, cb)

/-- `CircuitBreaker._on_success`: reset the failure count; HALF_OPEN recovers
to CLOSED. -/
def CircuitBreaker.onSuccess (cb : CircuitBreaker) : CircuitBreaker :=
  let cb1 := { cb with failure_count := 0 }
  if cb1.cstate = CBState.halfOpen then { cb1 with cstate := CBState.closed }
  else cb1

/-- `CircuitBreaker._on_failure`: bump the failure count, stamp the failure
time, and trip to OPEN once the threshold is reached. -/
def CircuitBreaker.onFailure (cb : CircuitBreaker) (now : Int) : CircuitBreaker :=
  let cb1 := { cb with
    failure_count := cb.failure_count + 1
    last_failure_time := some now }
  if cb1.failure_threshold ≤ cb1.failure_count then
    { cb1 with cstate := CBState.opened }
  else cb1

/-- Result of one pass through the wrapper produced by
`CircuitBreaker.__call__`: the call was rejected without invoking the wrapped
operation, or the operation ran and succeeded, or it ran and raised. -/
inductive CallOutcome where
  | rejected
  | succeeded
  | raised
deriving DecidableEq, Repr

/-- One invocation of the decorated function (`CircuitBreaker.__call__`'s
`wrapper`).  `opSucceeds` abstracts whether the wrapped operation would
succeed if it were actually invoked; the OPEN branch never consults it. -/
def CircuitBreaker.call (cb : CircuitBreaker) (now : Int) (opSucceeds : Bool) :
    CallOutcome × CircuitBreaker :=
  let p := cb.stateProp now
  if p.1 = CBState.opened then (CallOutcome.rejected, p.2)
  else if opSucceeds then (CallOutcome.succeeded, p.2.onSuccess)
  else (CallOutcome.raised, p.2.onFailure now)

/-! ## Retry with backoff (src/core/errors.py, retry_with_backoff) -/

/-- The retry loop of `retry_with_backoff`'s `wrapper`, started at a given
attempt index with `remaining = max_retries - attempt` retries left.
`op k` is the outcome of the k-th invocation of the wrapped function.
Returns the final result (the re-raised last exception on exhaustion),
the number of invocations made, and the list of sleep durations. -/
def retryGo {ε α : Type} (op : Nat → Except ε α) (base_delay : ℚ)
    (exponential : Bool) : Nat → Nat → Except ε α × Nat × List ℚ
  | attempt, 0 =>
    match op attempt with
    | Except.ok v => (Except.ok v, 1, [])
    | Except.error e => (Except.error e, 1, [])
  | attempt, remaining + 1 =>
    match op attempt with
    | Except.ok v => (Except.ok v, 1, [])
    | Except.error _ =>
      let d := base_delay * (if exponential then (2 : ℚ) ^ attempt else 1)
      let r := retryGo op base_delay exponential (attempt + 1) remaining
      (r.1, r.2.1 + 1, d :: r.2.2)

/-- `retry_with_backoff(max_retries, base_delay, exponential)` applied to an
operation: up to `max_retries + 1` invocations, sleeping between failed
attempts, finally re-raising the last captured exception. -/
def retry_with_backoff {ε α : Type} (op : Nat → Except ε α) (max_retries : Nat)
    (base_delay : ℚ) (exponential : Bool) : Except ε α × Nat × List ℚ :=
  retryGo op base_delay exponential 0 max_retries

/-! ## State manager (src/core/state.py) -/

/-- The persisted `PipelineState` pydantic model, restricted to the control
fields: intermediate stage outputs are embedded as one association list
(`data`), errors as (step, message) pairs. -/
structure PipelineState where
  pipeline_id : String
  current_step : String
  status : String
  steps_completed : List String
  errors : List (String × String)
  data : List (String × String)
deriving DecidableEq, Repr

/-- A fresh `PipelineState()` as built by `StateManager.state`. -/
def PipelineState.init (pid : String) : PipelineState :=
  { pipeline_id := pid
    current_step := "initialized"
    status := "running"
    steps_completed := []
    errors := []
    data := [] }

/-- `StateManager.checkpoint(step)`: set `current_step`, append `step` to
`steps_completed` (unconditionally), and persist.  Persistence is modelled
separately (`load_checkpoint`); this is the in-memory state transition. -/
def checkpoint (step : String) (st : PipelineState) : PipelineState :=
  { st with
    current_step := step
    steps_completed := st.steps_completed ++ [step] }

/-- `StateManager.can_resume_from(step)`: membership in `steps_completed`. -/
def can_resume_from (st : PipelineState) (step : String) : Bool :=
  st.steps_completed.contains step

/-- Outcome of `PipelineState(**data)`: a valid state, a caught error
(`ValueError`, which includes pydantic's `ValidationError`), or an uncaught
error (e.g. `TypeError` when `data` is not a mapping). -/
inductive ConstructResult (σ : Type) where
  | ok (st : σ)
  | valueError
  | typeError

/-- `StateManager.load_checkpoint(pipeline_id)`.  The checkpoint store is a
map from file name to raw content (`none` = file does not exist); `parse` is
`json.load` (`none` = `json.JSONDecodeError`); `construct` is
`PipelineState(**data)`.  Returns `(loaded?, new in-memory state)`, or
`Except.error` for an exception that escapes (only `construct`'s uncaught
errors can). -/
def load_checkpoint {γ δ σ : Type} (store : String → Option γ)
    (parse : γ → Option δ) (construct : δ → ConstructResult σ)
    (cur : Option σ) (pipeline_id : String) : Except Unit (Bool × Option σ) :=
  match store ("checkpoint_" ++ pipeline_id ++ ".json") with
  | none => Except.ok (false, cur)
  | some content =>
    match parse content with
    | none => Except.ok (false, cur)
    | some d =>
      match construct d with
      | ConstructResult.ok st => Except.ok (true, some st)
      | ConstructResult.valueError => Except.ok (false, cur)
      | ConstructResult.typeError => Except.error ()

/-! ## Job manager (src/core/job_manager.py) -/

/-- `JobStatus` enumeration. -/
inductive JobStatus where
  | pending
  | processing
  | completed
  | failed
deriving DecidableEq, Repr

/-- One record of the `JobManager._jobs` table.  The `result` payload is an
opaque type `ρ`; `updated_at` is absent until the first `update_job`. -/
structure Job (ρ : Type) where
  id : String
  status : JobStatus
  created_at : Int
  result : Option ρ
  error : Option String
  updated_at : Option Int

/-- The fresh record inserted by `create_job`. -/
def Job.new (ρ : Type) (job_id : String) (now : Int) : Job ρ :=
  { id := job_id
    status := JobStatus.pending
    created_at := now
    result := none
    error := none
    updated_at := none }

/-- Assignment `d[k] = v` on an insertion-ordered dictionary: overwrite in
place when the key exists, append otherwise. -/
def assocSet {β : Type} : List (String × β) → String → β → List (String × β)
  | [], k, v => [(k, v)]
  | (k', v') :: t, k, v =>
    if k' = k then (k, v) :: t else (k', v') :: assocSet t k v

/-- The class attribute `JobManager.MAX_JOBS` (capacity of the job table). -/
def MAX_JOBS : Nat := 100

/-- `JobManager.create_job` with capacity `maxJobs`, inserting `job_id`
(the fresh UUID) at time `now`: when the table is at capacity the oldest
(first-inserted) record is deleted first.  (With `maxJobs = 0` and an empty
table Python's `next(iter(...))` would raise; theorems below assume
`1 ≤ maxJobs`.) -/
def create_job {ρ : Type} (maxJobs : Nat) (jobs : List (String × Job ρ))
    (job_id : String) (now : Int) : List (String × Job ρ) :=
  let jobs1 := if maxJobs ≤ jobs.length then jobs.tail else jobs
  assocSet jobs1 job_id (Job.new ρ job_id now)

/-- `JobManager.get_job`. -/
def get_job {ρ : Type} (jobs : List (String × Job ρ)) (job_id : String) :
    Option (Job ρ) :=
  jobs.lookup job_id

/-- `JobManager.update_job`: update status, and result / error when truthy
(`none` embeds a falsy argument); stamp `updated_at`.  A missing `job_id`
leaves the table untouched. -/
def update_job {ρ : Type} (jobs : List (String × Job ρ)) (job_id : String)
    (status : JobStatus) (result : Option ρ) (error : Option String)
    (now : Int) : List (String × Job ρ) :=
  match jobs.lookup job_id with
  | none => jobs
  | some j =>
    let j1 := { j with status := status }
    let j2 := if result.isSome then { j1 with result := result } else j1
    let j3 := if error.isSome then { j2 with error := error } else j2
    assocSet jobs job_id { j3 with updated_at := some now }

/-! ## Orchestrator step execution (src/agents/orchestrator.py) -/

/-- The fixed step sequence executed by `Orchestrator.run` (its six
`_execute_step` calls, in order). -/
def pipeline_steps : List String :=
  ["parse_products", "logic_blocks", "generate_questions", "generate_pages",
   "fill_templates", "write_outputs"]

/-- `StateManager.fail(error)`: mark failed, record the error against the
current step, checkpoint a final "failed" snapshot. -/
def failRun (st : PipelineState) (msg : String) : PipelineState :=
  checkpoint "failed"
    { st with
      status := "failed"
      errors := st.errors ++ [(st.current_step, msg)] }

/-- `StateManager.complete()`: mark completed and checkpoint "completed". -/
def completeRun (st : PipelineState) : PipelineState :=
  checkpoint "completed" { st with status := "completed" }

/-- The loop of `_execute_step` calls inside `Orchestrator.run`.  A stage
body is a function of the step name and the intermediate `data` slots only
(step functions interact with state exclusively through
`StateManager.set_data`/`get_data`); `none` models the body raising.
`_execute_step` skips a step when `can_resume_from` holds, otherwise runs the
body and checkpoints on success; an exception aborts the run, which
`Orchestrator.run` converts into `StateManager.fail`.  Returns the names of
the steps whose bodies were invoked, the final state, and overall success. -/
def run_steps (body : String → List (String × String) → Option (List (String × String))) :
    List String → PipelineState → List String × PipelineState × Bool
  | [], st => ([], st, true)
  | n :: ns, st =>
    if can_resume_from st n then run_steps body ns st
    else
      match body n st.data with
      | none => ([n], failRun st "step failed", false)
      | some d =>
        let st1 := checkpoint n { st with data := d }
        let r := run_steps body ns st1
        (n :: r.1, r.2)

/-- `Orchestrator.run` after an (optional) checkpoint load: execute the six
pipeline steps from the given state, calling `StateManager.complete()` when
all succeed. -/
def orchestrator_run
    (body : String → List (String × String) → Option (List (String × String)))
    (st : PipelineState) : List String × PipelineState × Bool :=
  let r := run_steps body pipeline_steps st
  if r.2.2 then (r.1, completeRun r.2.1, true) else r

/-! ## Content validators (src/core/validator.py) -/

/-- One entry of a generated `questions` list: the `question` and `category`
fields, with `""` embedding a missing or empty (falsy) field. -/
structure QuestionItem where
  question : String
  category : String
deriving DecidableEq, Repr

/-- `ContentValidator.validate_questions` on a well-shaped payload (the model
fixes `data` to be a dict whose `questions` field is a list, which is how
every call site in `src/agents/nodes.py` builds it): at least 3 questions,
each with non-empty `question` and `category`. -/
def validate_questions (questions : List QuestionItem) : List String :=
  (if questions.length < 3 then
    ["Too few questions generated: " ++ toString questions.length ++ " (expected 3+)"]
  else []) ++
  questions.enum.flatMap (fun p =>
    (if p.2.question = "" then
      ["Question " ++ toString p.1 ++ " missing question text"]
    else []) ++
    (if p.2.category = "" then
      ["Question " ++ toString p.1 ++ " missing category"]
    else []))

/-- `ContentValidator.validate_product`: the output dict (embedded as an
association list of its fields) must contain `productName`, `benefits` and
`price`. -/
def validate_product (d : List (String × String)) : List String :=
  (["productName", "benefits", "price"].filter
    (fun f => (d.lookup f).isNone)).map
    (fun f => "Missing required field: " ++ f)

/-! ## Validation-gated generator nodes (src/agents/nodes.py) -/

/-- The `for attempt in range(max_retries)` loop shared by the generator
nodes: invoke the stage body (`run attempt`; `Except.error` models the agent
raising), validate the output, return it when validation passes, otherwise
retry; `none` is the fallen-through (fallback) outcome.  Returns the number
of body invocations together with the accepted output, if any. -/
def gateLoop {α : Type} (run : Nat → Except Unit α) (validate : α → List String) :
    Nat → Nat → Nat × Option α
  | _, 0 => (0, none)
  | attempt, remaining + 1 =>
    match run attempt with
    | Except.error _ =>
      let r := gateLoop run validate (attempt + 1) remaining
      (r.1 + 1, r.2)
    | Except.ok a =>
      if validate a = [] then (1, some a)
      else
        let r := gateLoop run validate (attempt + 1) remaining
        (r.1 + 1, r.2)

/-- `generate_questions_node` with `max_retries = 2`: returns the number of
agent invocations and the `questions` value placed in the result state —
the accepted list on success, the empty-list fallback otherwise. -/
def generate_questions_node (run : Nat → Except Unit (List QuestionItem)) :
    Nat × List QuestionItem :=
  let r := gateLoop run validate_questions 0 2
  match r.2 with
  | some qs => (r.1, qs)
  | none => (r.1, [])

/-- `generate_product_node` with `max_retries = 2`: returns the number of
agent invocations and the `product_output` value placed in the result state —
the accepted dict on success, `None` (here `none`) otherwise. -/
def generate_product_node (run : Nat → Except Unit (List (String × String))) :
    Nat × Option (List (String × String)) :=
  let r := gateLoop run validate_product 0 2
  (r.1, r.2)

/-! ## DAG validator (src/core/dag.py)

`DAGValidator.nodes` is an insertion-ordered dict from agents to their
dependency lists; agents are embedded as natural numbers.  The methods are
functions of that dict (the `self` argument).  `KeyError` (raised by
`color[dep]` / `self.nodes[agent]` on an undeclared agent) and the fuel of
the embedded recursion are made explicit via `Except DfsErr`; every theorem
below either proves the error cases unreachable or exhibits them. -/

/-- A `DAGValidator` instance: its `nodes` dict (agent ↦ dependency list),
in insertion order.  A Python dict has no duplicate keys; theorems carry the
corresponding `Nodup` hypothesis. -/
structure DAGDef where
  nodes : List (Nat × List Nat)

/-- The declared agents, in declaration order. -/
def DAGDef.keys (g : DAGDef) : List Nat := g.nodes.map Prod.fst

/-- `self.nodes[a].dependencies`.  The lookup defaults to `[]`; call sites
where Python would instead raise `KeyError` guard explicitly on `keys`. -/
def DAGDef.depsOf (g : DAGDef) (a : Nat) : List Nat :=
  (g.nodes.lookup a).getD []

/-- An exception escaping one of the DFS traversals: a `KeyError` on an
undeclared agent, or exhaustion of the recursion fuel (the latter is proved
unreachable for the fuel the entry points supply). -/
inductive DfsErr where
  | keyError
  | fuelOut
deriving DecidableEq, Repr

/-- The `color` dict of `_has_cycle`, refined into the gray-marked agents and
the blackened agents in finishing order; an agent on neither list is WHITE.
Marks are only ever added, and BLACK (tested first) overrides GRAY, matching
the WHITE→GRAY→BLACK overwrite discipline of the Python dict. -/
structure ColorSt where
  gray : List Nat
  fin : List Nat

/-- Colour lookup: 0 = WHITE, 1 = GRAY, 2 = BLACK. -/
def colorOf (s : ColorSt) (x : Nat) : Nat :=
  if x ∈ s.fin then 2 else if x ∈ s.gray then 1 else 0

mutual

/-- The inner `dfs` of `_has_cycle`: mark the agent gray, scan its
dependencies, blacken on a cycle-free return.  `True` means a cycle. -/
def cycleDfs (g : DAGDef) (fuel : Nat) (a : Nat) (s : ColorSt) :
    Except DfsErr (Bool × ColorSt) :=
  match fuel with
  | 0 => Except.error DfsErr.fuelOut
  | f + 1 =>
    match cycleScan g f (g.depsOf a) { s with gray := a :: s.gray } with
    | Except.error e => Except.error e
    | Except.ok (true, s2) => Except.ok (true, s2)
    | Except.ok (false, s2) => Except.ok (false, { s2 with fin := s2.fin ++ [a] })
termination_by (fuel, 0)

/-- The `for dep in ...` loop of the inner `dfs`: reading `color[dep]` raises
`KeyError` on an undeclared dependency; a GRAY dependency is a back edge
(cycle); a WHITE one is recursed into. -/
def cycleScan (g : DAGDef) (fuel : Nat) (ds : List Nat) (s : ColorSt) :
    Except DfsErr (Bool × ColorSt) :=
  match ds with
  | [] => Except.ok (false, s)
  | d :: rest =>
    if d ∈ g.keys then
      if colorOf s d = 1 then Except.ok (true, s)
      else if colorOf s d = 0 then
        match cycleDfs g fuel d s with
        | Except.error e => Except.error e
        | Except.ok (true, s2) => Except.ok (true, s2)
        | Except.ok (false, s2) => cycleScan g fuel rest s2
      else cycleScan g fuel rest s
    else Except.error DfsErr.keyError
termination_by (fuel, ds.length + 1)

end

/-- The top-level loop of `_has_cycle`: run the DFS from every still-WHITE
agent, in declaration order. -/
def hasCycleLoop (g : DAGDef) : List Nat → ColorSt → Except DfsErr Bool
  | [], _ => Except.ok false
  | a :: rest, s =>
    if colorOf s a = 0 then
      match cycleDfs g (g.keys.length + 1) a s with
      | Except.error e => Except.error e
      | Except.ok (true, _) => Except.ok true
      | Except.ok (false, s2) => hasCycleLoop g rest s2
    else hasCycleLoop g rest s

/-- `DAGValidator._has_cycle`. -/
def has_cycle (g : DAGDef) : Except DfsErr Bool :=
  hasCycleLoop g g.keys { gray := [], fin := [] }

/-- The undeclared-dependency errors collected by `validate`'s second loop. -/
def undeclaredErrors (g : DAGDef) : List String :=
  g.nodes.flatMap (fun p =>
    (p.2.filter (fun d => ¬ d ∈ g.keys)).map
      (fun d => toString p.1 ++ " depends on unknown agent " ++ toString d))

/-- `DAGValidator.validate`: run the cycle check (whose `KeyError`
propagates), then collect the undeclared-dependency errors; return
`(len(errors) == 0, errors)`. -/
def validateDag (g : DAGDef) : Except DfsErr (Bool × List String) :=
  match has_cycle g with
  | Except.error e => Except.error e
  | Except.ok b =>
    let errors :=
      (if b then ["Circular dependency detected in agent graph"] else []) ++
      undeclaredErrors g
    Except.ok (errors.isEmpty, errors)

/-- The `visited` set and `order` output list of `get_execution_order`. -/
structure VisitSt where
  visited : List Nat
  order : List Nat

mutual

/-- The inner `dfs` of `get_execution_order`: return if already visited, mark
visited, recurse into `self.nodes[a].dependencies` (a `KeyError` when `a` is
undeclared), then emit `a`. -/
def execDfs (g : DAGDef) (fuel : Nat) (a : Nat) (s : VisitSt) :
    Except DfsErr VisitSt :=
  match fuel with
  | 0 => Except.error DfsErr.fuelOut
  | f + 1 =>
    if a ∈ s.visited then Except.ok s
    else
      let s1 : VisitSt := { visited := a :: s.visited, order := s.order }
      if a ∈ g.keys then
        match execScan g f (g.depsOf a) s1 with
        | Except.error e => Except.error e
        | Except.ok s2 => Except.ok { s2 with order := s2.order ++ [a] }
      else Except.error DfsErr.keyError
termination_by (fuel, 0)

/-- The `for dep in ...: dfs(dep)` loop of `get_execution_order`'s `dfs`. -/
def execScan (g : DAGDef) (fuel : Nat) (ds : List Nat) (s : VisitSt) :
    Except DfsErr VisitSt :=
  match ds with
  | [] => Except.ok s
  | d :: rest =>
    match execDfs g fuel d s with
    | Except.error e => Except.error e
    | Except.ok s2 => execScan g fuel rest s2
termination_by (fuel, ds.length + 1)

end

/-- The `for agent in self.nodes: dfs(agent)` loop of `get_execution_order`. -/
def execFold (g : DAGDef) : List Nat → VisitSt → Except DfsErr VisitSt
  | [], s => Except.ok s
  | a :: rest, s =>
    match execDfs g (g.keys.length + 1) a s with
    | Except.error e => Except.error e
    | Except.ok s2 => execFold g rest s2

/-- `DAGValidator.get_execution_order`. -/
def get_execution_order (g : DAGDef) : Except DfsErr (List Nat) :=
  match execFold g g.keys { visited := [], order := [] } with
  | Except.error e => Except.error e
  | Except.ok s => Except.ok s.order

/-- Reachability along dependency edges; `Reaches g a b` is a non-empty
dependency path from `a` to `b`, so `Reaches g a a` is a cycle through `a`. -/
inductive Reaches (g : DAGDef) : Nat → Nat → Prop
  | step {a b : Nat} : b ∈ g.depsOf a → Reaches g a b
  | trans {a b c : Nat} : Reaches g a b → Reaches g b c → Reaches g a c

/-- A list of stages respects the dependency order when every stage's
dependencies occur strictly before it. -/
def DepsBefore (deps : Nat → List Nat) (l : List Nat) : Prop :=
  ∀ l1 a l2, l = l1 ++ a :: l2 → ∀ d ∈ deps a, d ∈ l1

/-- The still-WHITE declared agents of a colour state. -/
def whitesC (g : DAGDef) (s : ColorSt) : List Nat :=
  g.keys.filter (fun k => colorOf s k == 0)

/-- The not-yet-visited declared agents of a traversal state. -/
def pendV (g : DAGDef) (s : VisitSt) : List Nat :=
  g.keys.filter (fun k => decide (¬ k ∈ s.visited))

/-- How one (cycle-free) run of the colouring DFS relates its input state to
its output state: marks only grow, the blackened list is extended, no agent
is left GRAY that was not GRAY before, and every newly blackened agent was
WHITE before. -/
structure ColorStep (s s' : ColorSt) : Prop where
  finExt : ∃ t, s'.fin = s.fin ++ t
  grayExt : ∃ t, s'.gray = t ++ s.gray
  mono : ∀ x, colorOf s x ≠ 0 → colorOf s' x ≠ 0
  grayPres : ∀ x, colorOf s' x = 1 → colorOf s x = 1
  newFinWhite : ∀ x, x ∈ s'.fin → x ∈ s.fin ∨ colorOf s x = 0

/-- Invariant of the colouring DFS: blackened agents are declared, listed
once, and listed only after all their dependencies. -/
def StOkC (g : DAGDef) (s : ColorSt) : Prop :=
  (∀ x ∈ s.fin, x ∈ g.keys) ∧ s.fin.Nodup ∧ DepsBefore g.depsOf s.fin

/-- How one run of the ordering DFS relates its input state to its output
state: `visited` only grows, `order` is extended, the set of
visited-but-unordered ("in progress") agents is unchanged, and every newly
ordered agent was unvisited before. -/
structure VisitStep (s s' : VisitSt) : Prop where
  visExt : ∀ x ∈ s.visited, x ∈ s'.visited
  ordExt : ∃ t, s'.order = s.order ++ t
  grayEq : ∀ x, (x ∈ s'.visited ∧ x ∉ s'.order) ↔ (x ∈ s.visited ∧ x ∉ s.order)
  newOrdFresh : ∀ x, x ∈ s'.order → x ∈ s.order ∨ x ∉ s.visited

/-- Invariant of the ordering DFS: emitted agents are visited, visited agents
are declared, the output lists each agent at most once and only after its
dependencies. -/
def StOkV (g : DAGDef) (s : VisitSt) : Prop :=
  (∀ x ∈ s.order, x ∈ s.visited) ∧ (∀ x ∈ s.visited, x ∈ g.keys) ∧
    s.order.Nodup ∧ DepsBefore g.depsOf s.order

/-! ## Theorems -/

/-- Splitting a snoc: a decomposition of `l ++ [a]` as `l1 ++ x :: l2` either
lies inside `l` or picks out the final `a`. -/
theorem snoc_eq_append_cons {α : Type} {l l1 l2 : List α} {a x : α}
    (h : l ++ [a] = l1 ++ x :: l2) :
    (∃ l2', l = l1 ++ x :: l2' ∧ l2 = l2' ++ [a]) ∨ (l1 = l ∧ x = a ∧ l2 = []) := by
  induction l1 generalizing l with
  | nil =>
    cases l with
    | nil =>
      simp at h
      right
      exact ⟨rfl, h.1.symm, h.2⟩
    | cons y t =>
      simp at h
      left
      exact ⟨t, by simp [h.1], h.2.symm⟩
  | cons y t ih =>
    cases l with
    | nil =>
      simp at h
    | cons z u =>
      simp at h
      obtain ⟨h1, h2⟩ := h
      rcases ih h2 with ⟨l2', e1, e2⟩ | ⟨e1, e2, e3⟩
      · left; exact ⟨l2', by simp [h1, e1], e2⟩
      · right; exact ⟨by simp [h1, e1], e2, e3⟩

/-- The empty list trivially respects dependency order. -/
theorem depsBefore_nil (deps : Nat → List Nat) : DepsBefore deps [] := by
  intro l1 a l2 h _ _
  exact absurd h (by simp)

/-- Appending an agent whose dependencies are already present preserves
dependency order. -/
theorem depsBefore_snoc {deps : Nat → List Nat} {l : List Nat} {a : Nat}
    (h : DepsBefore deps l) (ha : ∀ d ∈ deps a, d ∈ l) :
    DepsBefore deps (l ++ [a]) := by
  intro l1 x l2 heq d hd
  rcases snoc_eq_append_cons heq with ⟨l2', h1, _⟩ | ⟨h1, h2, _⟩
  · exact h l1 x l2' h1 d hd
  · subst h1; subst h2; exact ha d hd

/-- A pointwise-stronger filter keeps no more elements. -/
theorem length_filter_le_of_imp {α : Type} (l : List α) (p q : α → Bool)
    (h : ∀ x ∈ l, q x = true → p x = true) :
    (l.filter q).length ≤ (l.filter p).length := by
  induction l with
  | nil => simp
  | cons x t ih =>
    have ht : ∀ y ∈ t, q y = true → p y = true :=
      fun y hy => h y (List.mem_cons_of_mem _ hy)
    by_cases hq : q x = true
    · have hp := h x (List.mem_cons_self x t) hq
      simpa [List.filter_cons, hq, hp] using ih ht
    · by_cases hp : p x = true
      · simp only [List.filter_cons, hq, hp, if_true, if_false, Bool.false_eq_true]
        simp only [List.length_cons]
        exact le_trans (ih ht) (Nat.le_succ _)
      · simpa [List.filter_cons, hq, hp] using ih ht

/-- A pointwise-stronger filter keeps strictly fewer elements when it drops a
witness the weaker filter keeps. -/
theorem length_filter_lt_of_imp {α : Type} (l : List α) (p q : α → Bool)
    (h : ∀ x ∈ l, q x = true → p x = true) (x0 : α) (hx0 : x0 ∈ l)
    (hp0 : p x0 = true) (hq0 : q x0 = false) :
    (l.filter q).length < (l.filter p).length := by
  induction l with
  | nil => cases hx0
  | cons x t ih =>
    have ht : ∀ y ∈ t, q y = true → p y = true :=
      fun y hy => h y (List.mem_cons_of_mem _ hy)
    rcases List.mem_cons.mp hx0 with rfl | hx0t
    · have hq : ¬ q x0 = true := by simp [hq0]
      simp only [List.filter_cons, hp0, hq, if_true, if_false, Bool.false_eq_true]
      simp only [List.length_cons]
      exact Nat.lt_succ_of_le (length_filter_le_of_imp t p q ht)
    · by_cases hq : q x = true
      · have hp := h x (List.mem_cons_self x t) hq
        simpa [List.filter_cons, hq, hp] using Nat.succ_lt_succ (ih ht hx0t)
      · by_cases hp : p x = true
        · simp only [List.filter_cons, hq, hp, if_true, if_false, Bool.false_eq_true]
          simp only [List.length_cons]
          exact Nat.lt_succ_of_lt (ih ht hx0t)
        · simpa [List.filter_cons, hq, hp] using ih ht hx0t

/-- Colour-lookup characterisation: BLACK. -/
theorem colorOf_two_iff {s : ColorSt} {x : Nat} :
    colorOf s x = 2 ↔ x ∈ s.fin := by
  unfold colorOf
  split_ifs <;> simp_all

/-- Colour-lookup characterisation: GRAY. -/
theorem colorOf_one_iff {s : ColorSt} {x : Nat} :
    colorOf s x = 1 ↔ x ∉ s.fin ∧ x ∈ s.gray := by
  unfold colorOf
  split_ifs <;> simp_all

/-- Colour-lookup characterisation: WHITE. -/
theorem colorOf_zero_iff {s : ColorSt} {x : Nat} :
    colorOf s x = 0 ↔ x ∉ s.fin ∧ x ∉ s.gray := by
  unfold colorOf
  split_ifs <;> simp_all

/-- Every agent is WHITE, GRAY or BLACK. -/
theorem colorOf_cases (s : ColorSt) (x : Nat) :
    colorOf s x = 0 ∨ colorOf s x = 1 ∨ colorOf s x = 2 := by
  unfold colorOf
  split_ifs <;> simp

/-- `ColorStep` is reflexive. -/
theorem colorStep_refl (s : ColorSt) : ColorStep s s :=
  ⟨⟨[], by simp⟩, ⟨[], by simp⟩, fun _ h => h, fun _ h => h, fun _ h => Or.inl h⟩

/-- `ColorStep` composes. -/
theorem colorStep_trans {s s' s'' : ColorSt}
    (h1 : ColorStep s s') (h2 : ColorStep s' s'') : ColorStep s s'' := by
  refine ⟨?_, ?_, ?_, ?_, ?_⟩
  · obtain ⟨t1, e1⟩ := h1.finExt
    obtain ⟨t2, e2⟩ := h2.finExt
    exact ⟨t1 ++ t2, by simp [e2, e1]⟩
  · obtain ⟨t1, e1⟩ := h1.grayExt
    obtain ⟨t2, e2⟩ := h2.grayExt
    exact ⟨t2 ++ t1, by simp [e2, e1]⟩
  · exact fun x h => h2.mono x (h1.mono x h)
  · exact fun x h => h1.grayPres x (h2.grayPres x h)
  · intro x hx
    rcases h2.newFinWhite x hx with h | h
    · exact h1.newFinWhite x h
    · right
      by_contra hne
      exact (h1.mono x hne) h

/-- `VisitStep` is reflexive. -/
theorem visitStep_refl (s : VisitSt) : VisitStep s s :=
  ⟨fun _ h => h, ⟨[], by simp⟩, fun _ => Iff.rfl, fun _ h => Or.inl h⟩

/-- `VisitStep` composes. -/
theorem visitStep_trans {s s' s'' : VisitSt}
    (h1 : VisitStep s s') (h2 : VisitStep s' s'') : VisitStep s s'' := by
  refine ⟨?_, ?_, ?_, ?_⟩
  · exact fun x h => h2.visExt x (h1.visExt x h)
  · obtain ⟨t1, e1⟩ := h1.ordExt
    obtain ⟨t2, e2⟩ := h2.ordExt
    exact ⟨t1 ++ t2, by simp [e2, e1]⟩
  · exact fun x => (h2.grayEq x).trans (h1.grayEq x)
  · intro x hx
    rcases h2.newOrdFresh x hx with h | h
    · exact h1.newOrdFresh x h
    · right
      exact fun hv => h (h1.visExt x hv)

/-- C3: with `failure_threshold = 3`, the 3rd consecutive failure (at any
times, with no intervening success) trips the breaker from CLOSED to OPEN;
while OPEN and within `recovery_timeout` of the last failure every call is
rejected without consulting the wrapped operation and the breaker is
unchanged; once the timeout has elapsed the next call is attempted and, on
success, the breaker returns to CLOSED with failure count 0. -/
theorem circuit_breaker_trips_rejects_recovers (T t1 t2 t3 : Int) :
    (((CircuitBreaker.init 3 T).call t1 false).1 = CallOutcome.raised ∧
      ((CircuitBreaker.init 3 T).call t1 false).2.cstate = CBState.closed) ∧
    (((((CircuitBreaker.init 3 T).call t1 false).2.call t2 false).1 = CallOutcome.raised) ∧
      (((CircuitBreaker.init 3 T).call t1 false).2.call t2 false).2.cstate = CBState.closed) ∧
    ((((((CircuitBreaker.init 3 T).call t1 false).2.call t2 false).2.call t3 false).1 = CallOutcome.raised) ∧
      ((((CircuitBreaker.init 3 T).call t1 false).2.call t2 false).2.call t3 false).2 =
        { failure_threshold := 3, recovery_timeout := T, cstate := CBState.opened,
          failure_count := 3, last_failure_time := some t3 }) ∧
    (∀ now : Int, ∀ b : Bool, now - t3 < T →
      CircuitBreaker.call
        { failure_threshold := 3, recovery_timeout := T, cstate := CBState.opened,
          failure_count := 3, last_failure_time := some t3 } now b =
      (CallOutcome.rejected,
        { failure_threshold := 3, recovery_timeout := T, cstate := CBState.opened,
          failure_count := 3, last_failure_time := some t3 })) ∧
    (∀ now : Int, now - t3 ≥ T →
      CircuitBreaker.call
        { failure_threshold := 3, recovery_timeout := T, cstate := CBState.opened,
          failure_count := 3, last_failure_time := some t3 } now true =
      (CallOutcome.succeeded,
        { failure_threshold := 3, recovery_timeout := T, cstate := CBState.closed,
          failure_count := 0, last_failure_time := some t3 })) := by
  refine ⟨?_, ?_, ?_, ?_, ?_⟩
  · constructor <;>
      simp [CircuitBreaker.init, CircuitBreaker.call, CircuitBreaker.stateProp,
        CircuitBreaker.onFailure]
  · constructor <;>
      simp [CircuitBreaker.init, CircuitBreaker.call, CircuitBreaker.stateProp,
        CircuitBreaker.onFailure]
  · constructor <;>
      simp [CircuitBreaker.init, CircuitBreaker.call, CircuitBreaker.stateProp,
        CircuitBreaker.onFailure]
  · intro now b h
    have h' : ¬ T ≤ now - t3 := by omega
    simp [CircuitBreaker.call, CircuitBreaker.stateProp, h']
  · intro now h
    have h' : T ≤ now - t3 := by omega
    simp [CircuitBreaker.call, CircuitBreaker.stateProp, h',
      CircuitBreaker.onSuccess]

/-- Witness for `circuit_breaker_trips_rejects_recovers` at concrete times:
timeout 10, failures at times 0, 1, 2, a rejected call at time 5 and a
recovering call at time 12. -/
theorem circuit_breaker_witness :
    (CircuitBreaker.call
      { failure_threshold := 3, recovery_timeout := 10, cstate := CBState.opened,
        failure_count := 3, last_failure_time := some 2 } 5 true =
      (CallOutcome.rejected,
        { failure_threshold := 3, recovery_timeout := 10, cstate := CBState.opened,
          failure_count := 3, last_failure_time := some 2 })) ∧
    (CircuitBreaker.call
      { failure_threshold := 3, recovery_timeout := 10, cstate := CBState.opened,
        failure_count := 3, last_failure_time := some 2 } 12 true =
      (CallOutcome.succeeded,
        { failure_threshold := 3, recovery_timeout := 10, cstate := CBState.closed,
          failure_count := 0, last_failure_time := some 2 })) :=
  ⟨(circuit_breaker_trips_rejects_recovers 10 0 1 2).2.2.2.1 5 true (by decide),
   (circuit_breaker_trips_rejects_recovers 10 0 1 2).2.2.2.2 12 (by decide)⟩

/-- C4: an always-failing operation under
`retry_with_backoff(max_retries=2, base_delay=1, exponential=True)` is
invoked exactly 3 times, with sleeps of 1 second then 2 seconds between the
attempts, and the error of the last (3rd) invocation is re-raised. -/
theorem retry_exhaustion {ε α : Type} (op : Nat → Except ε α)
    (hop : ∀ k, ∃ e, op k = Except.error e) :
    retry_with_backoff op 2 1 true = (op 2, 3, [1, 2]) := by
  obtain ⟨e0, h0⟩ := hop 0
  obtain ⟨e1, h1⟩ := hop 1
  obtain ⟨e2, h2⟩ := hop 2
  simp [retry_with_backoff, retryGo, h0, h1, h2]

/-- Witness for `retry_exhaustion`: the constant failing operation. -/
theorem retry_exhaustion_witness :
    retry_with_backoff (fun _ => (Except.error 0 : Except Nat Unit)) 2 1 true =
      (Except.error 0, 3, [1, 2]) :=
  retry_exhaustion (fun _ => Except.error 0) (fun _ => ⟨0, rfl⟩)

/-- C5 counterexample: `checkpoint` has no membership guard, so checkpointing
the same stage twice duplicates it in `steps_completed`, contradicting the
claimed no-duplicates invariant. -/
theorem checkpoint_duplicates_cex :
    (checkpoint "a" (checkpoint "a" (PipelineState.init "run1"))).steps_completed
      = ["a", "a"] ∧
    ¬ (checkpoint "a" (checkpoint "a" (PipelineState.init "run1"))).steps_completed.Nodup := by
  refine ⟨rfl, ?_⟩
  simp [checkpoint, PipelineState.init]

/-- C5 amended: `checkpoint(stage)` appends the stage to `completedStages`
unconditionally — a stage already present is appended again, so the sequence
can contain duplicates — and sets `currentStage` to the stage. -/
theorem checkpoint_appends_and_sets_current (st : PipelineState) (step : String) :
    (checkpoint step st).steps_completed = st.steps_completed ++ [step] ∧
    (checkpoint step st).current_step = step :=
  ⟨rfl, rfl⟩

/-- C7: `load_checkpoint` returns `False` and leaves the in-memory state
untouched — raising nothing — when the checkpoint record is missing or its
content fails to decode, and it returns `True` only when a state was
successfully rehydrated (which then replaces the in-memory state). -/
theorem load_checkpoint_missing_or_corrupt {γ δ σ : Type}
    (store : String → Option γ) (parse : γ → Option δ)
    (construct : δ → ConstructResult σ) (cur : Option σ) (pid : String) :
    (store ("checkpoint_" ++ pid ++ ".json") = none →
      load_checkpoint store parse construct cur pid = Except.ok (false, cur)) ∧
    (∀ c, store ("checkpoint_" ++ pid ++ ".json") = some c → parse c = none →
      load_checkpoint store parse construct cur pid = Except.ok (false, cur)) ∧
    (∀ s', load_checkpoint store parse construct cur pid = Except.ok (true, s') →
      ∃ c d st, store ("checkpoint_" ++ pid ++ ".json") = some c ∧
        parse c = some d ∧ construct d = ConstructResult.ok st ∧ s' = some st) := by
  refine ⟨?_, ?_, ?_⟩
  · intro h; simp [load_checkpoint, h]
  · intro c hc hp; simp [load_checkpoint, hc, hp]
  · intro s' h
    cases hc : store ("checkpoint_" ++ pid ++ ".json") with
    | none => simp [load_checkpoint, hc] at h
    | some c =>
      cases hp : parse c with
      | none => simp [load_checkpoint, hc, hp] at h
      | some d =>
        cases hk : construct d with
        | ok st =>
          simp [load_checkpoint, hc, hp, hk] at h
          exact ⟨c, d, st, rfl, hp, hk, h.symm⟩
        | valueError => simp [load_checkpoint, hc, hp, hk] at h
        | typeError => simp [load_checkpoint, hc, hp, hk] at h

/-- Witness for `load_checkpoint_missing_or_corrupt`: an empty store. -/
theorem load_checkpoint_witness :
    load_checkpoint (fun _ => (none : Option Unit)) (fun _ => (none : Option Unit))
      (fun _ => ConstructResult.valueError (σ := Unit)) none "run1" =
      Except.ok (false, none) :=
  (load_checkpoint_missing_or_corrupt (fun _ => none) (fun _ => none)
    (fun _ => ConstructResult.valueError) none "run1").1 rfl

/-- C10: `update_job` on an absent `job_id` raises nothing, leaves the job
table unchanged, and a subsequent `get_job` still returns `None`. -/
theorem update_job_missing_id {ρ : Type} (jobs : List (String × Job ρ))
    (job_id : String) (status : JobStatus) (result : Option ρ)
    (error : Option String) (now : Int)
    (h : jobs.lookup job_id = none) :
    update_job jobs job_id status result error now = jobs ∧
    get_job (update_job jobs job_id status result error now) job_id = none := by
  unfold update_job
  rw [h]
  exact ⟨rfl, h⟩

/-- Witness for `update_job_missing_id` on an empty table. -/
theorem update_job_missing_id_witness :
    update_job ([] : List (String × Job Unit)) "x" JobStatus.completed none none 0 = [] ∧
    get_job (update_job ([] : List (String × Job Unit)) "x" JobStatus.completed none none 0) "x" = none :=
  update_job_missing_id [] "x" JobStatus.completed none none 0 rfl

/-- Dictionary assignment grows the table by at most one entry. -/
theorem length_assocSet_le {β : Type} (l : List (String × β)) (k : String) (v : β) :
    (assocSet l k v).length ≤ l.length + 1 := by
  induction l with
  | nil => simp [assocSet]
  | cons p t ih =>
    by_cases h : p.1 = k
    · simp [assocSet, h]
    · simpa [assocSet, h] using Nat.succ_le_succ ih

/-- One `create_job` call keeps the table within capacity. -/
theorem create_job_length_le {ρ : Type} (maxJobs : Nat)
    (jobs : List (String × Job ρ)) (job_id : String) (now : Int)
    (hmax : 1 ≤ maxJobs) (hlen : jobs.length ≤ maxJobs) :
    (create_job maxJobs jobs job_id now).length ≤ maxJobs := by
  unfold create_job
  by_cases h : maxJobs ≤ jobs.length
  · have hfull : jobs.length = maxJobs := Nat.le_antisymm hlen h
    have hpos : 0 < jobs.length := by omega
    have htail : jobs.tail.length + 1 = jobs.length := by
      cases jobs with
      | nil => simp at hpos
      | cons p t => simp
    have hle := length_assocSet_le jobs.tail job_id (Job.new ρ job_id now)
    simp only [if_pos h]
    omega
  · have hle := length_assocSet_le jobs job_id (Job.new ρ job_id now)
    simp only [if_neg h]
    omega

/-- C9: with capacity 2 and a full table, `create_job` evicts the
first-inserted job (the earliest-created one still present), `get_job` on the
evicted id reports not-found, and — for any capacity of at least 1 — any
sequence of `create_job` calls keeps the table at no more than `maxJobs`
entries. -/
theorem job_manager_eviction_and_bound {ρ : Type} (a b c : String)
    (ja jb : Job ρ) (now : Int)
    (hab : a ≠ b) (hac : a ≠ c) (hbc : b ≠ c) :
    create_job 2 [(a, ja), (b, jb)] c now = [(b, jb), (c, Job.new ρ c now)] ∧
    get_job (create_job 2 [(a, ja), (b, jb)] c now) a = none ∧
    (∀ (maxJobs : Nat) (ops : List (String × Int)) (init : List (String × Job ρ)),
      1 ≤ maxJobs → init.length ≤ maxJobs →
      (ops.foldl (fun js p => create_job maxJobs js p.1 p.2) init).length ≤ maxJobs) := by
  have h1 : create_job 2 [(a, ja), (b, jb)] c now = [(b, jb), (c, Job.new ρ c now)] := by
    simp [create_job, assocSet, hbc]
  refine ⟨h1, ?_, ?_⟩
  · rw [h1]
    have e1 : (a == b) = false := beq_eq_false_iff_ne.mpr hab
    have e2 : (a == c) = false := beq_eq_false_iff_ne.mpr hac
    simp [get_job, List.lookup, e1, e2]
  · intro maxJobs ops init hmax hinit
    induction ops generalizing init with
    | nil => exact hinit
    | cons p t ih =>
      exact ih _ (create_job_length_le maxJobs init p.1 p.2 hmax hinit)

/-- Witness for `job_manager_eviction_and_bound` on three concrete jobs. -/
theorem job_manager_eviction_witness :
    create_job 2 [("j1", Job.new Unit "j1" 0), ("j2", Job.new Unit "j2" 1)] "j3" 2 =
      [("j2", Job.new Unit "j2" 1), ("j3", Job.new Unit "j3" 2)] ∧
    get_job (create_job 2 [("j1", Job.new Unit "j1" 0), ("j2", Job.new Unit "j2" 1)] "j3" 2) "j1" = none :=
  ⟨(job_manager_eviction_and_bound "j1" "j2" "j3" (Job.new Unit "j1" 0)
      (Job.new Unit "j2" 1) 2 (by decide) (by decide) (by decide)).1,
   (job_manager_eviction_and_bound "j1" "j2" "j3" (Job.new Unit "j1" 0)
      (Job.new Unit "j2" 1) 2 (by decide) (by decide) (by decide)).2.1⟩

/-- A step present in `steps_completed` is never executed by the step loop
(`_execute_step`'s resume guard). -/
theorem run_steps_skips_completed
    (body : String → List (String × String) → Option (List (String × String)))
    (names : List String) (st : PipelineState) :
    ∀ s ∈ st.steps_completed, s ∉ (run_steps body names st).1 := by
  induction names generalizing st with
  | nil => intro s _; simp [run_steps]
  | cons n ns ih =>
    intro s hs
    by_cases h : can_resume_from st n
    · simpa [run_steps, h] using ih st s hs
    · have hsn : s ≠ n := by
        intro e
        subst e
        exact h (by simpa [can_resume_from] using hs)
      cases hd : body n st.data with
      | none => simp [run_steps, h, hd, hsn]
      | some d =>
        have hs1 : s ∈ (checkpoint n { st with data := d }).steps_completed := by
          simp [checkpoint, hs]
        have hrec := ih (checkpoint n { st with data := d }) s hs1
        simp [run_steps, h, hd, hsn, hrec]

/-- When no body fails, the step loop executes precisely the steps that are
not in `steps_completed`, in pipeline order. -/
theorem run_steps_executes_pending
    (body : String → List (String × String) → Option (List (String × String)))
    (names : List String) (st : PipelineState)
    (hnd : names.Nodup) (htot : ∀ n d, (body n d).isSome) :
    (run_steps body names st).1 =
      names.filter (fun s => !(can_resume_from st s)) := by
  induction names generalizing st with
  | nil => simp [run_steps]
  | cons n ns ih =>
    have hnn : n ∉ ns := (List.nodup_cons.mp hnd).1
    have hnd' : ns.Nodup := (List.nodup_cons.mp hnd).2
    by_cases h : can_resume_from st n
    · simp [run_steps, h, ih st hnd']
    · obtain ⟨d, hd⟩ := Option.isSome_iff_exists.mp (htot n st.data)
      have hrec := ih (checkpoint n { st with data := d }) hnd'
      have hcongr : ns.filter
          (fun s => !(can_resume_from (checkpoint n { st with data := d }) s)) =
          ns.filter (fun s => !(can_resume_from st s)) := by
        apply List.filter_congr
        intro s hsns
        have hsn : s ≠ n := fun e => hnn (e ▸ hsns)
        simp [can_resume_from, checkpoint, hsn]
      simp [run_steps, h, hd, hrec, hcongr]

/-- C2: resuming from a checkpointed state, the orchestrator never invokes
the body of a stage recorded in `completedStages`, and (when no body fails)
it invokes exactly the bodies of the not-yet-completed stages, in pipeline
(topological) order — so execution resumes at the first pending stage. -/
theorem orchestrator_resume_skips_completed
    (body : String → List (String × String) → Option (List (String × String)))
    (st : PipelineState) :
    (∀ s ∈ st.steps_completed, s ∉ (orchestrator_run body st).1) ∧
    ((∀ n d, (body n d).isSome) →
      (orchestrator_run body st).1 =
        pipeline_steps.filter (fun s => !(can_resume_from st s))) := by
  have hexec : (orchestrator_run body st).1 = (run_steps body pipeline_steps st).1 := by
    unfold orchestrator_run
    by_cases h : (run_steps body pipeline_steps st).2.2 <;> simp [h]
  constructor
  · intro s hs
    rw [hexec]
    exact run_steps_skips_completed body pipeline_steps st s hs
  · intro htot
    rw [hexec]
    exact run_steps_executes_pending body pipeline_steps st (by decide) htot

/-- Witness for `orchestrator_resume_skips_completed`: a checkpoint that has
completed the first two stages resumes at `generate_questions`. -/
theorem orchestrator_resume_witness :
    "logic_blocks" ∉ (orchestrator_run (fun _ d => some d)
      { PipelineState.init "r" with
        steps_completed := ["parse_products", "logic_blocks"] }).1 ∧
    (orchestrator_run (fun _ d => some d)
      { PipelineState.init "r" with
        steps_completed := ["parse_products", "logic_blocks"] }).1 =
      ["generate_questions", "generate_pages", "fill_templates", "write_outputs"] := by
  constructor
  · exact (orchestrator_resume_skips_completed (fun _ d => some d)
      { PipelineState.init "r" with
        steps_completed := ["parse_products", "logic_blocks"] }).1
      "logic_blocks" (by decide)
  · rw [(orchestrator_resume_skips_completed (fun _ d => some d)
      { PipelineState.init "r" with
        steps_completed := ["parse_products", "logic_blocks"] }).2
      (fun _ _ => rfl)]
    decide

/-- A generator body whose every output fails validation exhausts all the
attempts of the gate loop: `remaining` invocations and no accepted output. -/
theorem gateLoop_always_invalid {α : Type} (run : Nat → Except Unit α)
    (validate : α → List String)
    (h : ∀ k, ∃ a, run k = Except.ok a ∧ validate a ≠ []) :
    ∀ remaining attempt, gateLoop run validate attempt remaining = (remaining, none) := by
  intro remaining
  induction remaining with
  | zero => intro attempt; rfl
  | succ r ih =>
    intro attempt
    obtain ⟨a, ha, hv⟩ := h attempt
    simp [gateLoop, ha, hv, ih]

/-- C6 counterexample: a product-page body whose output always fails
validation makes `generate_product_node` fall back to `product_output =
None` — a null, not an empty well-typed product result. -/
theorem validation_gate_product_none_cex :
    (∀ k : Nat, ∃ out,
      (fun _ : Nat => (Except.ok [] : Except Unit (List (String × String)))) k
        = Except.ok out ∧
      validate_product out ≠ []) ∧
    generate_product_node (fun _ => Except.ok []) = (2, none) := by
  constructor
  · intro k
    exact ⟨[], rfl, by decide⟩
  · decide

/-- C6 amended: a generator stage whose every output fails validation has its
body invoked exactly twice (`max_retries = 2`) and the gate then returns the
node's hard-coded fallback without raising: the empty questions list for
`generate_questions_node`, but a null (`None`) `product_output` for
`generate_product_node`. -/
theorem validation_gate_exhaustion
    (runQ : Nat → Except Unit (List QuestionItem))
    (runP : Nat → Except Unit (List (String × String)))
    (hq : ∀ k, ∃ a, runQ k = Except.ok a ∧ validate_questions a ≠ [])
    (hp : ∀ k, ∃ a, runP k = Except.ok a ∧ validate_product a ≠ []) :
    generate_questions_node runQ = (2, []) ∧
    generate_product_node runP = (2, none) := by
  have h1 := gateLoop_always_invalid runQ validate_questions hq 2 0
  have h2 := gateLoop_always_invalid runP validate_product hp 2 0
  constructor
  · simp [generate_questions_node, h1]
  · simp [generate_product_node, h2]

/-- Witness for `validation_gate_exhaustion`: bodies returning empty outputs,
which both validators reject. -/
theorem validation_gate_exhaustion_witness :
    generate_questions_node (fun _ => Except.ok []) = (2, []) ∧
    generate_product_node (fun _ => Except.ok []) = (2, none) :=
  validation_gate_exhaustion (fun _ => Except.ok []) (fun _ => Except.ok [])
    (fun _ => ⟨[], rfl, by decide⟩) (fun _ => ⟨[], rfl, by decide⟩)

/-- Colour-lookup characterisation: non-WHITE. -/
theorem colorOf_ne_zero_iff {s : ColorSt} {x : Nat} :
    colorOf s x ≠ 0 ↔ x ∈ s.fin ∨ x ∈ s.gray := by
  rw [Ne, colorOf_zero_iff]
  tauto

/-- Specification of `cycleScan`, given the specification of `cycleDfs` at
the same fuel: scanning declared dependencies either reports a cycle or
completes with every scanned dependency blackened, preserving the invariant
and making a `ColorStep`. -/
theorem cycleScan_spec_of_dfs (g : DAGDef) (fuel : Nat)
    (hdfs : ∀ a s, a ∈ g.keys → colorOf s a = 0 → StOkC g s →
        (whitesC g s).length ≤ fuel →
        (∀ x, colorOf s x = 1 → Reaches g x a ∨ x = a) →
        (∃ s', cycleDfs g fuel a s = Except.ok (true, s') ∧ ∃ c, Reaches g c c) ∨
        (∃ s', cycleDfs g fuel a s = Except.ok (false, s') ∧ ColorStep s s' ∧
          StOkC g s' ∧ a ∈ s'.fin)) :
    ∀ ds (p : Nat) s, (∀ d ∈ ds, d ∈ g.keys) → (∀ d ∈ ds, d ∈ g.depsOf p) →
      StOkC g s →
      (whitesC g s).length ≤ fuel →
      (∀ x, colorOf s x = 1 → Reaches g x p ∨ x = p) →
      (∃ s', cycleScan g fuel ds s = Except.ok (true, s') ∧ ∃ c, Reaches g c c) ∨
      (∃ s', cycleScan g fuel ds s = Except.ok (false, s') ∧ ColorStep s s' ∧
        StOkC g s' ∧ ∀ d ∈ ds, d ∈ s'.fin) := by
  intro ds
  induction ds with
  | nil =>
    intro p s _ _ hok _ _
    right
    exact ⟨s, by simp only [cycleScan], colorStep_refl s, hok, by simp⟩
  | cons d rest ih =>
    intro p s hds hdsp hok hw hanc
    have hdk : d ∈ g.keys := hds d (List.mem_cons_self d rest)
    have hrest : ∀ x ∈ rest, x ∈ g.keys :=
      fun x hx => hds x (List.mem_cons_of_mem _ hx)
    have hrestp : ∀ x ∈ rest, x ∈ g.depsOf p :=
      fun x hx => hdsp x (List.mem_cons_of_mem _ hx)
    have hpd : Reaches g p d := Reaches.step (hdsp d (List.mem_cons_self d rest))
    have hancd : ∀ x, colorOf s x = 1 → Reaches g x d ∨ x = d := by
      intro x hx
      left
      rcases hanc x hx with h | h
      · exact Reaches.trans h hpd
      · exact h ▸ hpd
    rcases colorOf_cases s d with hw0 | hw1 | hw2
    · rcases hdfs d s hdk hw0 hok hw hancd with
        ⟨s', hrun, hcyc⟩ | ⟨s', hrun, hstep, hok', hdfin⟩
      · left
        refine ⟨s', ?_, hcyc⟩
        simp only [cycleScan]
        simp [hdk, hw0, hrun]
      · have hw' : (whitesC g s').length ≤ fuel := by
          refine le_trans ?_ hw
          simp only [whitesC]
          refine length_filter_le_of_imp _ _ _ ?_
          intro x _ hx
          simp only [beq_iff_eq] at hx ⊢
          by_contra hne
          exact (hstep.mono x hne) hx
        have hanc' : ∀ x, colorOf s' x = 1 → Reaches g x p ∨ x = p :=
          fun x hx => hanc x (hstep.grayPres x hx)
        rcases ih p s' hrest hrestp hok' hw' hanc' with
          ⟨s'', hrun2, hcyc2⟩ | ⟨s'', hrun2, hstep2, hok2, hfin2⟩
        · left
          refine ⟨s'', ?_, hcyc2⟩
          simp only [cycleScan]
          simp [hdk, hw0, hrun, hrun2]
        · right
          refine ⟨s'', ?_, colorStep_trans hstep hstep2, hok2, ?_⟩
          · simp only [cycleScan]
            simp [hdk, hw0, hrun, hrun2]
          · intro x hx
            rcases List.mem_cons.mp hx with rfl | hxr
            · obtain ⟨t, ht⟩ := hstep2.finExt
              rw [ht]
              exact List.mem_append_left _ hdfin
            · exact hfin2 x hxr
    · left
      refine ⟨s, ?_, ?_⟩
      · simp only [cycleScan]
        simp [hdk, hw1]
      · refine ⟨d, ?_⟩
        rcases hanc d hw1 with h | h
        · exact Reaches.trans h hpd
        · exact h ▸ hpd
    · rcases ih p s hrest hrestp hok hw hanc with
        ⟨s', hrun, hcyc⟩ | ⟨s', hrun, hstep, hok', hfin⟩
      · left
        refine ⟨s', ?_, hcyc⟩
        simp only [cycleScan]
        simp [hdk, hw2, hrun]
      · right
        refine ⟨s', ?_, hstep, hok', ?_⟩
        · simp only [cycleScan]
          simp [hdk, hw2, hrun]
        · intro x hx
          rcases List.mem_cons.mp hx with rfl | hxr
          · obtain ⟨t, ht⟩ := hstep.finExt
            rw [ht]
            exact List.mem_append_left _ (colorOf_two_iff.mp hw2)
          · exact hfin x hxr

/-- Specification of `cycleDfs` on a WHITE declared agent with sufficient
fuel: it either reports a cycle, or completes with the agent blackened,
preserving the invariant and making a `ColorStep`. -/
theorem cycleDfs_spec (g : DAGDef)
    (hclosed : ∀ a ∈ g.keys, ∀ d ∈ g.depsOf a, d ∈ g.keys) :
    ∀ fuel, ∀ a s, a ∈ g.keys → colorOf s a = 0 → StOkC g s →
      (whitesC g s).length ≤ fuel →
      (∀ x, colorOf s x = 1 → Reaches g x a ∨ x = a) →
      (∃ s', cycleDfs g fuel a s = Except.ok (true, s') ∧ ∃ c, Reaches g c c) ∨
      (∃ s', cycleDfs g fuel a s = Except.ok (false, s') ∧ ColorStep s s' ∧
        StOkC g s' ∧ a ∈ s'.fin) := by
  intro fuel
  induction fuel with
  | zero =>
    intro a s hak hw0 _ hw _
    exfalso
    have hmem : a ∈ whitesC g s := by
      simp [whitesC, List.mem_filter, hak, hw0]
    have := List.length_pos_of_mem hmem
    omega
  | succ f ih =>
    intro a s hak hw0 hok hw hanc
    have ha_nfin : a ∉ s.fin := (colorOf_zero_iff.mp hw0).1
    have ha_ngray : a ∉ s.gray := (colorOf_zero_iff.mp hw0).2
    have hok1 : StOkC g ({ gray := a :: s.gray, fin := s.fin } : ColorSt) := hok
    have hcol1 : ∀ x, colorOf ({ gray := a :: s.gray, fin := s.fin } : ColorSt) x = 0 →
        colorOf s x = 0 := by
      intro x hx
      rw [colorOf_zero_iff] at hx ⊢
      exact ⟨hx.1, fun hg => hx.2 (List.mem_cons_of_mem _ hg)⟩
    have hcol1a : colorOf ({ gray := a :: s.gray, fin := s.fin } : ColorSt) a = 1 := by
      rw [colorOf_one_iff]
      exact ⟨ha_nfin, List.mem_cons_self a _⟩
    have hw1 : (whitesC g ({ gray := a :: s.gray, fin := s.fin } : ColorSt)).length <
        (whitesC g s).length := by
      simp only [whitesC]
      refine length_filter_lt_of_imp _ _ _ ?_ a hak ?_ ?_
      · intro x _ hx
        simp only [beq_iff_eq] at hx ⊢
        exact hcol1 x hx
      · simp only [beq_iff_eq]
        exact hw0
      · simp only [beq_eq_false_iff_ne, Ne]
        rw [hcol1a]
        omega
    have hwle : (whitesC g ({ gray := a :: s.gray, fin := s.fin } : ColorSt)).length ≤ f := by
      omega
    have hanc1 : ∀ x, colorOf ({ gray := a :: s.gray, fin := s.fin } : ColorSt) x = 1 →
        Reaches g x a ∨ x = a := by
      intro x hx
      rw [colorOf_one_iff] at hx
      rcases List.mem_cons.mp hx.2 with e | h
      · exact Or.inr e
      · exact hanc x (colorOf_one_iff.mpr ⟨hx.1, h⟩)
    rcases cycleScan_spec_of_dfs g f ih (g.depsOf a) a
        ({ gray := a :: s.gray, fin := s.fin } : ColorSt) (hclosed a hak)
        (fun _ hd => hd) hok1 hwle hanc1 with
      ⟨s2, hrun, hcyc⟩ | ⟨s2, hrun, hstep, hok2, hfin2⟩
    · left
      refine ⟨s2, ?_, hcyc⟩
      simp only [cycleDfs]
      simp [hrun]
    · have haf2 : a ∉ s2.fin := by
        intro hmem
        rcases hstep.newFinWhite a hmem with h | h
        · exact ha_nfin h
        · rw [hcol1a] at h
          omega
      right
      refine ⟨{ gray := s2.gray, fin := s2.fin ++ [a] }, ?_, ?_, ?_, by simp⟩
      · simp only [cycleDfs]
        simp [hrun]
      · refine ⟨?_, ?_, ?_, ?_, ?_⟩
        · obtain ⟨t, ht⟩ := hstep.finExt
          exact ⟨t ++ [a], by simp [ht]⟩
        · obtain ⟨t, ht⟩ := hstep.grayExt
          exact ⟨t ++ [a], by simp [ht]⟩
        · intro x hx
          have hx1 : colorOf ({ gray := a :: s.gray, fin := s.fin } : ColorSt) x ≠ 0 := by
            rw [colorOf_ne_zero_iff] at hx ⊢
            rcases hx with h | h
            · exact Or.inl h
            · exact Or.inr (List.mem_cons_of_mem _ h)
          have hx2 := hstep.mono x hx1
          rw [colorOf_ne_zero_iff] at hx2 ⊢
          rcases hx2 with h | h
          · exact Or.inl (List.mem_append_left _ h)
          · exact Or.inr h
        · intro x hx
          rw [colorOf_one_iff] at hx
          obtain ⟨hxf, hxg⟩ := hx
          have hxa : x ≠ a := by
            intro e
            subst e
            exact hxf (by simp)
          have hxs2 : colorOf s2 x = 1 := by
            rw [colorOf_one_iff]
            exact ⟨fun h => hxf (List.mem_append_left _ h), hxg⟩
          have hxs1 := hstep.grayPres x hxs2
          rw [colorOf_one_iff] at hxs1 ⊢
          refine ⟨hxs1.1, ?_⟩
          rcases List.mem_cons.mp hxs1.2 with e | h
          · exact absurd e hxa
          · exact h
        · intro x hx
          rcases List.mem_append.mp hx with h | h
          · rcases hstep.newFinWhite x h with h' | h'
            · exact Or.inl h'
            · exact Or.inr (hcol1 x h')
          · right
            rw [List.mem_singleton] at h
            subst h
            exact hw0
      · refine ⟨?_, ?_, ?_⟩
        · intro x hx
          rcases List.mem_append.mp hx with h | h
          · exact hok2.1 x h
          · rw [List.mem_singleton] at h
            subst h
            exact hak
        · rw [List.nodup_append]
          exact ⟨hok2.2.1, List.nodup_singleton a, by simpa using haf2⟩
        · exact depsBefore_snoc hok2.2.2 hfin2

/-- Specification of the `_has_cycle` top loop on a state with no GRAY
agents: it reports a cycle, or finishes with every listed agent blackened and
still no GRAY agents. -/
theorem hasCycleLoop_spec (g : DAGDef)
    (hclosed : ∀ a ∈ g.keys, ∀ d ∈ g.depsOf a, d ∈ g.keys) :
    ∀ as s, (∀ x ∈ as, x ∈ g.keys) → StOkC g s → (∀ x, colorOf s x ≠ 1) →
      (hasCycleLoop g as s = Except.ok true ∧ ∃ c, Reaches g c c) ∨
      (∃ s', hasCycleLoop g as s = Except.ok false ∧ StOkC g s' ∧
        (∀ x, colorOf s' x ≠ 1) ∧ (∀ x ∈ as, x ∈ s'.fin) ∧ ColorStep s s') := by
  intro as
  induction as with
  | nil =>
    intro s _ hok hng
    right
    exact ⟨s, by simp only [hasCycleLoop], hok, hng, by simp, colorStep_refl s⟩
  | cons a rest ih =>
    intro s has hok hng
    have hak : a ∈ g.keys := has a (List.mem_cons_self a rest)
    have hrest : ∀ x ∈ rest, x ∈ g.keys :=
      fun x hx => has x (List.mem_cons_of_mem _ hx)
    by_cases hw0 : colorOf s a = 0
    · have hwlen : (whitesC g s).length ≤ g.keys.length + 1 := by
        have hle := List.length_filter_le (fun k => colorOf s k == 0) g.keys
        simp only [whitesC]
        omega
      have hanc : ∀ x, colorOf s x = 1 → Reaches g x a ∨ x = a :=
        fun x hx => absurd hx (hng x)
      rcases cycleDfs_spec g hclosed (g.keys.length + 1) a s hak hw0 hok hwlen hanc with
        ⟨s', hrun, hcyc⟩ | ⟨s', hrun, hstep, hok', hafin⟩
      · left
        refine ⟨?_, hcyc⟩
        simp only [hasCycleLoop]
        simp [hw0, hrun]
      · have hng' : ∀ x, colorOf s' x ≠ 1 := fun x h => hng x (hstep.grayPres x h)
        rcases ih s' hrest hok' hng' with ⟨h, hcyc⟩ | ⟨s'', hrun2, hok2, hng2, hfin2, hstep2⟩
        · left
          refine ⟨?_, hcyc⟩
          simp only [hasCycleLoop]
          simpa [hw0, hrun] using h
        · right
          refine ⟨s'', ?_, hok2, hng2, ?_, colorStep_trans hstep hstep2⟩
          · simp only [hasCycleLoop]
            simpa [hw0, hrun] using hrun2
          · intro x hx
            rcases List.mem_cons.mp hx with rfl | hxr
            · obtain ⟨t, ht⟩ := hstep2.finExt
              rw [ht]
              exact List.mem_append_left _ hafin
            · exact hfin2 x hxr
    · rcases ih s hrest hok hng with ⟨h, hcyc⟩ | ⟨s', hrun2, hok', hng', hfin, hstep⟩
      · left
        refine ⟨?_, hcyc⟩
        simp only [hasCycleLoop]
        simpa [hw0] using h
      · right
        refine ⟨s', ?_, hok', hng', ?_, hstep⟩
        · simp only [hasCycleLoop]
          simpa [hw0] using hrun2
        · intro x hx
          rcases List.mem_cons.mp hx with rfl | hxr
          · have h2 : colorOf s x = 2 := by
              rcases colorOf_cases s x with h' | h' | h'
              · exact absurd h' hw0
              · exact absurd h' (hng x)
              · exact h'
            obtain ⟨t, ht⟩ := hstep.finExt
            rw [ht]
            exact List.mem_append_left _ (colorOf_two_iff.mp h2)
          · exact hfin x hxr

/-- `_has_cycle` on a closed definition cannot raise: it reports a cycle or
yields a finishing list of all declared agents that respects dependency
order. -/
theorem has_cycle_ok (g : DAGDef)
    (hclosed : ∀ a ∈ g.keys, ∀ d ∈ g.depsOf a, d ∈ g.keys) :
    (has_cycle g = Except.ok true ∧ ∃ c, Reaches g c c) ∨
    (∃ fin : List Nat, has_cycle g = Except.ok false ∧ (∀ k ∈ g.keys, k ∈ fin) ∧
      (∀ x ∈ fin, x ∈ g.keys) ∧ fin.Nodup ∧ DepsBefore g.depsOf fin) := by
  have h0 : StOkC g { gray := [], fin := [] } :=
    ⟨by simp, List.nodup_nil, depsBefore_nil _⟩
  have hng : ∀ x, colorOf ({ gray := [], fin := [] } : ColorSt) x ≠ 1 := by
    intro x
    rw [Ne, colorOf_one_iff]
    simp
  rcases hasCycleLoop_spec g hclosed g.keys { gray := [], fin := [] }
      (fun _ hx => hx) h0 hng with ⟨h, hcyc⟩ | ⟨s', h, hok, _, hfin, _⟩
  · left
    exact ⟨h, hcyc⟩
  · right
    exact ⟨s'.fin, h, hfin, hok.1, hok.2.1, hok.2.2⟩

/-- In a duplicate-free dependency-ordered list, every dependency is indexed
strictly before its dependent. -/
theorem depsBefore_indexOf_lt {g : DAGDef} {fin : List Nat}
    (hnd : fin.Nodup) (hdb : DepsBefore g.depsOf fin) :
    ∀ a ∈ fin, ∀ d ∈ g.depsOf a, fin.indexOf d < fin.indexOf a := by
  intro a ha d hd
  obtain ⟨l1, l2, heq⟩ := List.append_of_mem ha
  subst heq
  have hd1 : d ∈ l1 := hdb l1 a l2 rfl d hd
  have hna : a ∉ l1 := by
    rw [List.nodup_append] at hnd
    exact fun hmem => hnd.2.2 hmem (List.mem_cons_self a l2)
  rw [List.indexOf_append_of_mem hd1, List.indexOf_append_of_not_mem hna,
    List.indexOf_cons_self]
  have := List.indexOf_lt_length.mpr hd1
  omega

/-- An agent with a declared dependency list is itself declared. -/
theorem mem_keys_of_deps_mem {g : DAGDef} {a d : Nat} (h : d ∈ g.depsOf a) :
    a ∈ g.keys := by
  unfold DAGDef.depsOf at h
  cases hl : g.nodes.lookup a with
  | none => rw [hl] at h; simp at h
  | some ds =>
    obtain ⟨l1, l2, heq, _⟩ := List.lookup_eq_some_iff.mp hl
    unfold DAGDef.keys
    rw [heq]
    simp

/-- Along a dependency path any monotone rank strictly decreases, and the
path stays among declared agents. -/
theorem reaches_rank {g : DAGDef} {rank : Nat → Nat}
    (hclosed : ∀ a ∈ g.keys, ∀ d ∈ g.depsOf a, d ∈ g.keys)
    (hmono : ∀ a ∈ g.keys, ∀ d ∈ g.depsOf a, rank d < rank a) :
    ∀ {a b : Nat}, Reaches g a b → rank b < rank a ∧ b ∈ g.keys := by
  intro a b h
  induction h with
  | step hd =>
    have hak := mem_keys_of_deps_mem hd
    exact ⟨hmono _ hak _ hd, hclosed _ hak _ hd⟩
  | trans _ _ ih1 ih2 =>
    exact ⟨lt_trans ih2.1 ih1.1, ih2.2⟩

/-- C8 amended: for every DAG definition whose dependency relation contains
a cycle and all of whose dependencies name declared stages, `validate`
returns `ok = false` together with an error mentioning the circular
dependency.  (Without the all-declared proviso the cycle check can raise a
`KeyError` instead — see the counterexample.) -/
theorem validate_reports_cycle (g : DAGDef)
    (hclosed : ∀ a ∈ g.keys, ∀ d ∈ g.depsOf a, d ∈ g.keys)
    (hcyc : ∃ a, Reaches g a a) :
    ∃ errs, validateDag g = Except.ok (false, errs) ∧
      "Circular dependency detected in agent graph" ∈ errs := by
  rcases has_cycle_ok g hclosed with ⟨h, _⟩ | ⟨fin, h, hkf, hfk, hnd, hdb⟩
  · refine ⟨"Circular dependency detected in agent graph" :: undeclaredErrors g, ?_, ?_⟩
    · unfold validateDag
      rw [h]
      simp
    · exact List.mem_cons_self _ _
  · exfalso
    obtain ⟨a, hra⟩ := hcyc
    have hmono' : ∀ x ∈ g.keys, ∀ d ∈ g.depsOf x, fin.indexOf d < fin.indexOf x :=
      fun x hx d hd => depsBefore_indexOf_lt hnd hdb x (hkf x hx) d hd
    exact absurd (reaches_rank hclosed hmono' hra).1 (lt_irrefl _)

/-- C8 counterexample: the definition with the single stage `0`, whose
dependency list `[1, 0]` contains the cycle `0 → 0` but also names the
undeclared stage `1`.  `validate` raises a `KeyError` (from `color[dep]` in
`_has_cycle`) instead of returning `ok = false` with the collected errors. -/
theorem validate_cycle_keyerror_cex :
    (∃ a, Reaches (DAGDef.mk [(0, [1, 0])]) a a) ∧
    validateDag (DAGDef.mk [(0, [1, 0])]) = Except.error DfsErr.keyError := by
  constructor
  · refine ⟨0, Reaches.step ?_⟩
    simp [DAGDef.depsOf, List.lookup]
  · simp [validateDag, has_cycle, hasCycleLoop, cycleDfs, cycleScan, colorOf,
      DAGDef.keys, DAGDef.depsOf, List.lookup]

/-- Witness for `validate_reports_cycle`: the two-stage cycle `0 → 1 → 0`
with every dependency declared. -/
theorem validate_reports_cycle_witness :
    ∃ errs, validateDag (DAGDef.mk [(0, [1]), (1, [0])]) = Except.ok (false, errs) ∧
      "Circular dependency detected in agent graph" ∈ errs :=
  validate_reports_cycle (DAGDef.mk [(0, [1]), (1, [0])])
    (by decide)
    ⟨0, @Reaches.trans (DAGDef.mk [(0, [1]), (1, [0])]) 0 1 0
      (Reaches.step (by simp [DAGDef.depsOf, List.lookup]))
      (Reaches.step (by simp [DAGDef.depsOf, List.lookup]))⟩

/-- An empty undeclared-dependency error list means every dependency of
every stage is declared. -/
theorem closed_of_undeclared_empty {g : DAGDef}
    (h : undeclaredErrors g = []) :
    ∀ a, ∀ d ∈ g.depsOf a, d ∈ g.keys := by
  intro a d hd
  unfold DAGDef.depsOf at hd
  cases hl : g.nodes.lookup a with
  | none => rw [hl] at hd; simp at hd
  | some ds =>
    rw [hl] at hd
    simp only [Option.getD_some] at hd
    obtain ⟨l1, l2, heq, _⟩ := List.lookup_eq_some_iff.mp hl
    have hmem : (a, ds) ∈ g.nodes := by
      rw [heq]
      simp
    by_contra hdk
    unfold undeclaredErrors at h
    rw [List.flatMap_eq_nil_iff] at h
    have h2 := h _ hmem
    rw [List.map_eq_nil_iff, List.filter_eq_nil_iff] at h2
    have h3 := h2 d hd
    simp at h3
    exact hdk h3

/-- Specification of `execScan`, given the specification of `execDfs` at the
same fuel. -/
theorem execScan_spec_of_dfs (g : DAGDef) (rank : Nat → Nat) (fuel : Nat)
    (hdfs : ∀ a s, a ∈ g.keys → StOkV g s →
        (pendV g s).length < fuel →
        (∀ x, x ∈ s.visited → x ∉ s.order → rank a < rank x) →
        ∃ s', execDfs g fuel a s = Except.ok s' ∧ VisitStep s s' ∧ StOkV g s' ∧
          a ∈ s'.visited ∧ (a ∈ s'.order ∨ (a ∈ s.visited ∧ a ∉ s.order))) :
    ∀ ds s, (∀ d ∈ ds, d ∈ g.keys) → StOkV g s →
      (pendV g s).length < fuel →
      (∀ d ∈ ds, ∀ x, x ∈ s.visited → x ∉ s.order → rank d < rank x) →
      ∃ s', execScan g fuel ds s = Except.ok s' ∧ VisitStep s s' ∧ StOkV g s' ∧
        (∀ d ∈ ds, d ∈ s'.order ∨ (d ∈ s.visited ∧ d ∉ s.order)) := by
  intro ds
  induction ds with
  | nil =>
    intro s _ hok _ _
    exact ⟨s, by simp only [execScan], visitStep_refl s, hok, by simp⟩
  | cons d rest ih =>
    intro s hds hok hpend hgr
    have hdk : d ∈ g.keys := hds d (List.mem_cons_self d rest)
    have hrest : ∀ x ∈ rest, x ∈ g.keys :=
      fun x hx => hds x (List.mem_cons_of_mem _ hx)
    obtain ⟨s1, hrun1, hstep1, hok1, hdvis, hdord⟩ :=
      hdfs d s hdk hok hpend (hgr d (List.mem_cons_self d rest))
    have hpend1 : (pendV g s1).length < fuel := by
      refine lt_of_le_of_lt ?_ hpend
      simp only [pendV]
      refine length_filter_le_of_imp _ _ _ ?_
      intro x _ hx
      simp only [decide_eq_true_eq] at hx ⊢
      exact fun hv => hx (hstep1.visExt x hv)
    have hgr1 : ∀ d' ∈ rest, ∀ x, x ∈ s1.visited → x ∉ s1.order → rank d' < rank x := by
      intro d' hd' x hxv hxo
      have hg := (hstep1.grayEq x).mp ⟨hxv, hxo⟩
      exact hgr d' (List.mem_cons_of_mem _ hd') x hg.1 hg.2
    obtain ⟨s2, hrun2, hstep2, hok2, hrord⟩ := ih s1 hrest hok1 hpend1 hgr1
    refine ⟨s2, ?_, visitStep_trans hstep1 hstep2, hok2, ?_⟩
    · simp only [execScan]
      simp [hrun1, hrun2]
    · intro x hx
      rcases List.mem_cons.mp hx with rfl | hxr
      · rcases hdord with h | h
        · left
          obtain ⟨t, ht⟩ := hstep2.ordExt
          rw [ht]
          exact List.mem_append_left _ h
        · exact Or.inr h
      · rcases hrord x hxr with h | h
        · exact Or.inl h
        · exact Or.inr ((hstep1.grayEq x).mp h)

/-- Specification of `execDfs` on a declared agent with sufficient fuel and
a rank certifying acyclicity: it completes without raising; an
already-in-progress agent is left alone and a fresh one is emitted, after
its dependencies, preserving the invariant. -/
theorem execDfs_spec (g : DAGDef) (rank : Nat → Nat)
    (hclosed : ∀ a ∈ g.keys, ∀ d ∈ g.depsOf a, d ∈ g.keys)
    (hrank : ∀ a ∈ g.keys, ∀ d ∈ g.depsOf a, rank d < rank a) :
    ∀ fuel, ∀ a s, a ∈ g.keys → StOkV g s →
      (pendV g s).length < fuel →
      (∀ x, x ∈ s.visited → x ∉ s.order → rank a < rank x) →
      ∃ s', execDfs g fuel a s = Except.ok s' ∧ VisitStep s s' ∧ StOkV g s' ∧
        a ∈ s'.visited ∧ (a ∈ s'.order ∨ (a ∈ s.visited ∧ a ∉ s.order)) := by
  intro fuel
  induction fuel with
  | zero =>
    intro a s _ _ hpend _
    exact absurd hpend (by omega)
  | succ f ih =>
    intro a s hak hok hpend hgr
    by_cases hv : a ∈ s.visited
    · refine ⟨s, ?_, visitStep_refl s, hok, hv, ?_⟩
      · simp only [execDfs]
        simp [hv]
      · by_cases ho : a ∈ s.order
        · exact Or.inl ho
        · exact Or.inr ⟨hv, ho⟩
    · have hok1 : StOkV g ({ visited := a :: s.visited, order := s.order } : VisitSt) := by
        obtain ⟨h1, h2, h3, h4⟩ := hok
        refine ⟨fun x hx => List.mem_cons_of_mem _ (h1 x hx), ?_, h3, h4⟩
        intro x hx
        rcases List.mem_cons.mp hx with rfl | h
        · exact hak
        · exact h2 x h
      have hpend1 :
          (pendV g ({ visited := a :: s.visited, order := s.order } : VisitSt)).length <
            (pendV g s).length := by
        simp only [pendV]
        refine length_filter_lt_of_imp _ _ _ ?_ a hak ?_ ?_
        · intro x _ hx
          simp only [decide_eq_true_eq] at hx ⊢
          exact fun h => hx (List.mem_cons_of_mem _ h)
        · simp only [decide_eq_true_eq]
          exact hv
        · simp
      have hpendf :
          (pendV g ({ visited := a :: s.visited, order := s.order } : VisitSt)).length < f := by
        omega
      have hgr1 : ∀ d ∈ g.depsOf a, ∀ x, x ∈ (a :: s.visited) → x ∉ s.order →
          rank d < rank x := by
        intro d hd x hxv hxo
        rcases List.mem_cons.mp hxv with rfl | hxs
        · exact hrank x hak d hd
        · exact lt_trans (hrank a hak d hd) (hgr x hxs hxo)
      obtain ⟨s2, hrun, hstep, hok2, hords⟩ :=
        execScan_spec_of_dfs g rank f ih (g.depsOf a)
          { visited := a :: s.visited, order := s.order }
          (hclosed a hak) hok1 hpendf hgr1
      have hao2 : a ∉ s2.order := by
        intro hmem
        rcases hstep.newOrdFresh a hmem with h | h
        · exact hv (hok.1 a h)
        · exact h (List.mem_cons_self a _)
      have hdeps2 : ∀ d ∈ g.depsOf a, d ∈ s2.order := by
        intro d hd
        rcases hords d hd with h | ⟨hxv, hxo⟩
        · exact h
        · exfalso
          rcases List.mem_cons.mp hxv with e | hxs
          · rw [e] at hd
            exact absurd (hrank a hak a hd) (lt_irrefl _)
          · exact absurd (lt_trans (hrank a hak d hd) (hgr d hxs hxo)) (lt_irrefl _)
      refine ⟨{ visited := s2.visited, order := s2.order ++ [a] }, ?_, ?_, ?_, ?_, ?_⟩
      · simp only [execDfs]
        simp [hv, hak, hrun]
      · refine ⟨?_, ?_, ?_, ?_⟩
        · intro x hx
          exact hstep.visExt x (List.mem_cons_of_mem _ hx)
        · obtain ⟨t, ht⟩ := hstep.ordExt
          exact ⟨t ++ [a], by simp [ht]⟩
        · intro x
          constructor
          · rintro ⟨hxv, hxo⟩
            have hxa : x ≠ a := by
              intro e
              subst e
              exact hxo (List.mem_append_right _ (by simp))
            have hx2 : x ∈ s2.visited ∧ x ∉ s2.order :=
              ⟨hxv, fun h => hxo (List.mem_append_left _ h)⟩
            have hg := (hstep.grayEq x).mp hx2
            rcases List.mem_cons.mp hg.1 with e | h
            · exact absurd e hxa
            · exact ⟨h, hg.2⟩
          · rintro ⟨hxv, hxo⟩
            have hxa : x ≠ a := fun e => hv (e ▸ hxv)
            have hg := (hstep.grayEq x).mpr ⟨List.mem_cons_of_mem _ hxv, hxo⟩
            refine ⟨hg.1, ?_⟩
            intro hmem
            rcases List.mem_append.mp hmem with h | h
            · exact hg.2 h
            · rw [List.mem_singleton] at h
              exact hxa h
        · intro x hx
          rcases List.mem_append.mp hx with h | h
          · rcases hstep.newOrdFresh x h with h' | h'
            · exact Or.inl h'
            · exact Or.inr (fun hxv => h' (List.mem_cons_of_mem _ hxv))
          · rw [List.mem_singleton] at h
            subst h
            exact Or.inr hv
      · refine ⟨?_, hok2.2.1, ?_, ?_⟩
        · intro x hx
          rcases List.mem_append.mp hx with h | h
          · exact hok2.1 x h
          · rw [List.mem_singleton] at h
            rw [h]
            exact hstep.visExt a (List.mem_cons_self a _)
        · rw [List.nodup_append]
          exact ⟨hok2.2.2.1, List.nodup_singleton a, by simpa using hao2⟩
        · exact depsBefore_snoc hok2.2.2.2 hdeps2
      · exact hstep.visExt a (List.mem_cons_self a _)
      · exact Or.inl (List.mem_append_right _ (by simp))

/-- Specification of the `get_execution_order` top loop starting from a
state with no in-progress agents: it completes with every listed agent
emitted, all invariants intact. -/
theorem execFold_spec (g : DAGDef) (rank : Nat → Nat)
    (hclosed : ∀ a ∈ g.keys, ∀ d ∈ g.depsOf a, d ∈ g.keys)
    (hrank : ∀ a ∈ g.keys, ∀ d ∈ g.depsOf a, rank d < rank a) :
    ∀ as s, (∀ x ∈ as, x ∈ g.keys) → StOkV g s →
      (∀ x, x ∈ s.visited → x ∈ s.order) →
      ∃ s', execFold g as s = Except.ok s' ∧ StOkV g s' ∧
        (∀ x, x ∈ s'.visited → x ∈ s'.order) ∧ (∀ x ∈ as, x ∈ s'.order) ∧
        VisitStep s s' := by
  intro as
  induction as with
  | nil =>
    intro s _ hok hng
    exact ⟨s, by simp only [execFold], hok, hng, by simp, visitStep_refl s⟩
  | cons a rest ih =>
    intro s has hok hng
    have hak := has a (List.mem_cons_self a rest)
    have hpend : (pendV g s).length < g.keys.length + 1 := by
      have hle := List.length_filter_le (fun k => decide (¬ k ∈ s.visited)) g.keys
      simp only [pendV]
      omega
    have hgr : ∀ x, x ∈ s.visited → x ∉ s.order → rank a < rank x :=
      fun x hxv hxo => absurd (hng x hxv) hxo
    obtain ⟨s1, hrun, hstep, hok1, hav, haord⟩ :=
      execDfs_spec g rank hclosed hrank (g.keys.length + 1) a s hak hok hpend hgr
    have hng1 : ∀ x, x ∈ s1.visited → x ∈ s1.order := by
      intro x hxv
      by_contra hxo
      have hg := (hstep.grayEq x).mp ⟨hxv, hxo⟩
      exact absurd (hng x hg.1) hg.2
    have haord1 : a ∈ s1.order := by
      rcases haord with h | ⟨hxv, hxo⟩
      · exact h
      · exact absurd (hng a hxv) hxo
    obtain ⟨s2, hrun2, hok2, hng2, hrest2, hstep2⟩ :=
      ih s1 (fun x hx => has x (List.mem_cons_of_mem _ hx)) hok1 hng1
    refine ⟨s2, ?_, hok2, hng2, ?_, visitStep_trans hstep hstep2⟩
    · simp only [execFold]
      simp [hrun, hrun2]
    · intro x hx
      rcases List.mem_cons.mp hx with rfl | hxr
      · obtain ⟨t, ht⟩ := hstep2.ordExt
        rw [ht]
        exact List.mem_append_left _ haord1
      · exact hrest2 x hxr

/-- C1: for every valid DAG definition — acyclic, with every dependency
naming a declared stage — `get_execution_order` raises nothing and returns a
sequence containing every declared stage exactly once that never places a
stage before any of its dependencies. -/
theorem execution_order_topological (g : DAGDef)
    (hclosed : ∀ a ∈ g.keys, ∀ d ∈ g.depsOf a, d ∈ g.keys)
    (hacyc : ¬ ∃ c, Reaches g c c) :
    ∃ ord, get_execution_order g = Except.ok ord ∧
      (∀ k ∈ g.keys, ord.count k = 1) ∧
      (∀ l1 a l2, ord = l1 ++ a :: l2 → ∀ d ∈ g.depsOf a, d ∈ l1) := by
  rcases has_cycle_ok g hclosed with ⟨_, hcyc⟩ | ⟨fin, _, hkf, hfk, hnd, hdb⟩
  · exact absurd hcyc hacyc
  · have hrank : ∀ a ∈ g.keys, ∀ d ∈ g.depsOf a, fin.indexOf d < fin.indexOf a :=
      fun a ha d hd => depsBefore_indexOf_lt hnd hdb a (hkf a ha) d hd
    have h0 : StOkV g { visited := [], order := [] } :=
      ⟨by simp, by simp, List.nodup_nil, depsBefore_nil _⟩
    obtain ⟨s', hrun, hok', _, hall, _⟩ :=
      execFold_spec g (fun x => fin.indexOf x) hclosed hrank g.keys
        { visited := [], order := [] } (fun _ hx => hx) h0 (by simp)
    refine ⟨s'.order, ?_, ?_, hok'.2.2.2⟩
    · simp only [get_execution_order]
      simp [hrun]
    · intro k hk
      exact List.count_eq_one_of_mem hok'.2.2.1 (hall k hk)

/-- Witness for `execution_order_topological`: the pipeline's own DAG from
`DAGValidator.__init__` (PARSER 0, QUESTION 1, FAQ 2, PRODUCT_PAGE 3,
COMPARISON 4, TEMPLATE 5). -/
theorem execution_order_witness :
    ∃ ord, get_execution_order (DAGDef.mk [(0, []), (1, [0]), (2, [0, 1]),
        (3, [0]), (4, [0]), (5, [2, 3, 4])]) = Except.ok ord ∧
      (∀ k ∈ (DAGDef.mk [(0, []), (1, [0]), (2, [0, 1]),
        (3, [0]), (4, [0]), (5, [2, 3, 4])]).keys, ord.count k = 1) ∧
      (∀ l1 a l2, ord = l1 ++ a :: l2 →
        ∀ d ∈ (DAGDef.mk [(0, []), (1, [0]), (2, [0, 1]),
          (3, [0]), (4, [0]), (5, [2, 3, 4])]).depsOf a, d ∈ l1) :=
  execution_order_topological
    (DAGDef.mk [(0, []), (1, [0]), (2, [0, 1]), (3, [0]), (4, [0]), (5, [2, 3, 4])])
    (by decide)
    (fun h => by
      obtain ⟨c, hc⟩ := h
      have hmono : ∀ a ∈ (DAGDef.mk [(0, []), (1, [0]), (2, [0, 1]),
          (3, [0]), (4, [0]), (5, [2, 3, 4])]).keys,
          ∀ d ∈ (DAGDef.mk [(0, []), (1, [0]), (2, [0, 1]),
            (3, [0]), (4, [0]), (5, [2, 3, 4])]).depsOf a,
          (fun x => x) d < (fun x => x) a := by decide
      exact absurd (reaches_rank (by decide) hmono hc).1 (lt_irrefl _))

end PipelineCore
